import Mathlib

/-!
Shallow embedding of `plugins/modules/ansible_collection.py`.

Python strings are modelled as `List Char` (`Str`), lists of strings as
`List Str`.  The parsed JSON manifest produced by
`ansible-galaxy collection list --format=json` is modelled as an association
list from install-root path to the list of installed collection names, in
object order (CPython's `json.loads` preserves member order in its `dict`).
Filesystem deletion (`shutil.rmtree`) is modelled by collecting, in call
order, the paths that would be removed.
-/

abbrev Str := List Char

abbrev Manifest := List (Str × List Str)

/-- `VERSION_SPECIFIER_PREFIXES = ('*', '!=', '==', '>=', '>', '<=', '<')`. -/
def VERSION_SPECIFIER_PREFIXES : List Str :=
  [['*'], ['!', '='], ['=', '='], ['>', '='], ['>'], ['<', '='], ['<']]

/-- Python `s.startswith(p)` for a single prefix `p`. -/
def startswith (s p : Str) : Bool :=
  match p, s with
  | [], _ => true
  | _ :: _, [] => false
  | a :: ps, c :: cs => a = c && startswith cs ps

/-- Python `s.startswith(VERSION_SPECIFIER_PREFIXES)`: true when `s` begins
with any of the tuple's prefixes. -/
def startswithSpecPrefix (s : Str) : Bool :=
  VERSION_SPECIFIER_PREFIXES.any (fun p => startswith s p)

/-- Python `s.lstrip()` (whitespace is modelled by `Char.isWhitespace`). -/
def lstrip (s : Str) : Str := s.dropWhile Char.isWhitespace

/-- The continuation test of `fix_orphaned_version_specifiers`:
`item.lstrip().startswith(VERSION_SPECIFIER_PREFIXES)`. -/
def isOrphanedSpecifier (item : Str) : Bool :=
  startswithSpecPrefix (lstrip item)

/-- The loop of `fix_orphaned_version_specifiers`, with the two mutable
locals `fixed_name` and `collection_name_components` passed as state. -/
def fixLoop (fixed_name : List Str) (components : List Str) :
    List Str → List Str × List Str
  | [] => (fixed_name, components)
  | item :: rest =>
    if isOrphanedSpecifier item then
      fixLoop fixed_name (components ++ [item]) rest
    else
      if components.isEmpty then
        fixLoop fixed_name [item] rest
      else
        fixLoop (fixed_name ++ [List.intercalate [','] components]) [item] rest

/-- `fix_orphaned_version_specifiers(name)`: rejoin orphaned version
specifiers with their collection name (`','.join` is
`List.intercalate [',']`). -/
def fix_orphaned_version_specifiers (name : List Str) : List Str :=
  let (fixed_name, components) := fixLoop [] [] name
  if components.isEmpty then fixed_name
  else fixed_name ++ [List.intercalate [','] components]

/-- Python `s.split(sep)` for a one-character separator: `splitChar ':' s`.
Always returns at least one (possibly empty) part. -/
def splitChar (sep : Char) : Str → List Str
  | [] => [[]]
  | c :: rest =>
    if c = sep then [] :: splitChar sep rest
    else
      match splitChar sep rest with
      | [] => [[c]]
      | h :: t => (c :: h) :: t

/-- One step of `os.path.join` on POSIX: `join(a, b)`. -/
def osPathJoin2 (a b : Str) : Str :=
  if startswith b ['/'] then b
  else if a.isEmpty || startswith a.reverse ['/'] then a ++ b
  else a ++ '/' :: b

/-- `os.path.join(a, *parts)` on POSIX. -/
def osPathJoin (a : Str) (parts : List Str) : Str :=
  parts.foldl osPathJoin2 a

/-- `collections.defaultdict(list)` modelled as an association list in key
insertion order; `d[k].append(v)` either extends the existing entry or
creates `(k, [v])` at the end. -/
def dictAppend (d : List (Str × List Str)) (k : Str) (v : Str) :
    List (Str × List Str) :=
  match d with
  | [] => [(k, [v])]
  | (k0, vs) :: rest =>
    if k0 = k then (k0, vs ++ [v]) :: rest else (k0, vs) :: dictAppend rest k v

/-- Reading the association list: the entry for `k`, or `[]` if absent
(also `defaultdict`'s read-on-missing default). -/
def lookupList (d : List (Str × List Str)) (k : Str) : List Str :=
  match d with
  | [] => []
  | (k0, vs) :: rest => if k0 = k then vs else lookupList rest k

/-- Python `k in d`. -/
def hasKey (d : List (Str × List Str)) (k : Str) : Bool :=
  match d with
  | [] => false
  | (k0, _) :: rest => k0 = k || hasKey rest k

/-- `installed_collections_dict(list_result)`: the reverse index
collection-name → install paths.  JSON decoding (`json.loads`, an external
library) is modelled as the already decoded `Manifest` argument. -/
def installed_collections_dict (list_result : Manifest) :
    List (Str × List Str) :=
  list_result.foldl
    (fun d pc =>
      pc.2.foldl
        (fun d collection =>
          dictAppend d collection (osPathJoin pc.1 (splitChar '.' collection)))
        d)
    []

/-- One loop iteration of `remove_version_specifiers`:
`parts = item.split(':')`, then yield `parts[0]` when `len(parts) > 1 and
parts[1].startswith(VERSION_SPECIFIER_PREFIXES)`, else yield `item`. -/
def remove_version_specifier_item (item : Str) : Str :=
  match splitChar ':' item with
  | p0 :: p1 :: _ => if startswithSpecPrefix p1 then p0 else item
  | _ => item

/-- `remove_version_specifiers(name)`: the generator is modelled as the list
of its yields. -/
def remove_version_specifiers (name : List Str) : List Str :=
  name.map remove_version_specifier_item

/-- `collection_uninstall(name, list_result)`: returns `changed` together
with the list of paths passed to `shutil.rmtree`, in call order. -/
def collection_uninstall (name : List Str) (list_result : Manifest) :
    Bool × List Str :=
  let installed_collections := installed_collections_dict list_result
  (remove_version_specifiers name).foldl
    (fun acc collection =>
      if hasKey installed_collections collection then
        (true, acc.2 ++ lookupList installed_collections collection)
      else acc)
    (false, [])

/-- The four values of the `state` option (the keys of `state_args`). -/
inductive ModuleState
  | absent
  | present
  | latest
  | forcereinstall
deriving DecidableEq

/-- The `state_args` table of `run_module`. -/
def state_args : ModuleState → List Str
  | ModuleState.absent => ["list".toList, "--format=json".toList]
  | ModuleState.present => ["install".toList]
  | ModuleState.latest => ["install".toList, "--upgrade".toList]
  | ModuleState.forcereinstall => ["install".toList, "--force".toList]

/-- Python `s.split()` with no argument: split on whitespace runs,
discarding empty pieces (`word` holds the current word reversed). -/
def splitWsAux (word : Str) : Str → List Str
  | [] => if word.isEmpty then [] else [word.reverse]
  | c :: rest =>
    if c.isWhitespace then
      if word.isEmpty then splitWsAux [] rest
      else word.reverse :: splitWsAux [] rest
    else splitWsAux (c :: word) rest

def splitWs (s : Str) : List Str := splitWsAux [] s

/-- `if extra_args: extra_args = extra_args.split() else: extra_args = []`
(`None` and the empty string are falsy, and `''.split() == []`). -/
def extraSplit : Option Str → List Str
  | none => []
  | some s => splitWs s

/-- `if name: name = fix_orphaned_version_specifiers(name)` — `None` stays
`None` and the falsy empty list stays empty. -/
def fixed_name : Option (List Str) → Option (List Str)
  | none => none
  | some l => some (if l.isEmpty then l else fix_orphaned_version_specifiers l)

/-- Reading the possibly-`None` repaired `name` where the code unpacks it
into the command.  Unpacking `None` would raise `TypeError`, but argument
validation (`required_one_of=[['name', 'requirements']]`) rules that case
out before `run_module`'s body reaches this point. -/
def nameList : Option (List Str) → List Str
  | none => []
  | some l => l

/-- The `targets` computation of `run_module` (`name` already repaired);
`if requirements:` is falsy for `None` and for the empty string. -/
def plan_targets (state : ModuleState) (name : Option (List Str))
    (requirements : Option Str) : List Str :=
  if state = ModuleState.absent then []
  else
    match requirements with
    | some r => if r.isEmpty then nameList name else ['-', 'r'] :: [r]
    | none => nameList name

/-- `cmd = [executable, 'collection', *state_args[state], *extra_args,
*targets]` (executable already resolved by `shutil.which`, an external
collaborator). -/
def plan_cmd (executable : Str) (state : ModuleState)
    (name : Option (List Str)) (requirements : Option Str)
    (extra_args : Option Str) : List Str :=
  executable :: "collection".toList ::
    (state_args state ++ extraSplit extra_args ++
      plan_targets state (fixed_name name) requirements)

/-- The `(rc, stdout, stderr)` triple returned by `module.run_command`. -/
structure RunOutput where
  rc : Int
  stdout : Str
  stderr : Str

/-- The `result` payload after the command ran (`cmd`, `rc`, `stdout`,
`stderr` are always filled in by then). -/
structure ModuleResult where
  changed : Bool
  rc : Int
  stdout : Str
  stderr : Str
  cmd : List Str
deriving DecidableEq

/-- Terminal outcome of `run_module`: `module.fail_json(msg=..., **result)`
or `module.exit_json(**result)`. -/
inductive ModuleOutcome
  | failJson (msg : Str) (result : ModuleResult)
  | exitJson (result : ModuleResult)
deriving DecidableEq

/-- Python `needle in hay` on strings: substring test. -/
def isSubstringOf (needle : Str) : Str → Bool
  | [] => needle.isEmpty
  | c :: rest => startswith (c :: rest) needle || isSubstringOf needle rest

/-- The body of `run_module` after argument validation and executable
resolution (both done by external collaborators): plan the command, run it
(`run` models `module.run_command`, closed over `chdir`), and derive the
outcome.  `parse` models `json.loads` on the listing stdout: `none` when it
raises.  In the `absent` branch with `name = None`,
`remove_version_specifiers(None)` raises `TypeError` when iterated — after
`json.loads` succeeded — and the `except` handler turns either exception
into the `collection uninstall failed` failure.  `shutil.rmtree` is
modelled as always succeeding, so `DeletionError` does not occur here. -/
def run_module (state : ModuleState) (name : Option (List Str))
    (requirements : Option Str) (extra_args : Option Str)
    (executable : Str) (run : List Str → RunOutput)
    (parse : Str → Option Manifest) : ModuleOutcome :=
  let cmd := plan_cmd executable state name requirements extra_args
  let out := run cmd
  let result : ModuleResult :=
    { changed := false, rc := out.rc, stdout := out.stdout,
      stderr := out.stderr, cmd := cmd }
  if out.rc ≠ 0 then
    ModuleOutcome.failJson (executable ++ " exit with non-zero code".toList)
      result
  else if state = ModuleState.absent then
    match parse out.stdout with
    | none =>
      ModuleOutcome.failJson "collection uninstall failed".toList result
    | some manifest =>
      match fixed_name name with
      | none =>
        ModuleOutcome.failJson "collection uninstall failed".toList result
      | some l =>
        ModuleOutcome.exitJson
          { result with changed := (collection_uninstall l manifest).1 }
  else
    ModuleOutcome.exitJson
      { result with
        changed := isSubstringOf "was installed successfully".toList
          out.stdout }

/-- The final flush of `fix_orphaned_version_specifiers`, factored out of
the definition for reasoning about intermediate loop states. -/
def fixFinish (p : List Str × List Str) : List Str :=
  if p.2.isEmpty then p.1 else p.1 ++ [List.intercalate [','] p.2]

theorem fix_eq_finish (name : List Str) :
    fix_orphaned_version_specifiers name = fixFinish (fixLoop [] [] name) :=
  rfl

theorem intercalate_comma_single (x : Str) : List.intercalate [','] [x] = x := by
  simp [List.intercalate]

theorem intercalate_comma_cons (x y : Str) (l : List Str) :
    List.intercalate [','] (x :: y :: l) =
      x ++ ',' :: List.intercalate [','] (y :: l) := by
  simp [List.intercalate]

theorem intercalate_comma_append (a b : List Str) (ha : a ≠ []) (hb : b ≠ []) :
    List.intercalate [','] (a ++ b) =
      List.intercalate [','] a ++ ',' :: List.intercalate [','] b := by
  induction a with
  | nil => exact absurd rfl ha
  | cons x xs ih =>
    cases xs with
    | nil =>
      cases b with
      | nil => exact absurd rfl hb
      | cons y ys =>
        rw [List.singleton_append, intercalate_comma_cons,
          intercalate_comma_single]
    | cons x2 xs2 =>
      have hxs : (x2 :: xs2 : List Str) ≠ [] := by simp
      have hab : (x2 :: xs2 : List Str) ++ b ≠ [] := by simp
      obtain ⟨z, zs, hz⟩ : ∃ z zs, (x2 :: xs2 : List Str) ++ b = z :: zs :=
        ⟨x2, xs2 ++ b, by simp⟩
      rw [List.cons_append, hz, intercalate_comma_cons, ← hz, ih hxs,
        intercalate_comma_cons]
      simp

theorem fixLoop_all_spec (l : List Str) (fixed comps : List Str)
    (h : ∀ c ∈ l, isOrphanedSpecifier c = true) :
    fixLoop fixed comps l = (fixed, comps ++ l) := by
  induction l generalizing comps with
  | nil => simp [fixLoop]
  | cons x xs ih =>
    have hx : isOrphanedSpecifier x = true := h x (by simp)
    rw [fixLoop, if_pos hx, ih (comps ++ [x]) (fun c hc => h c (by simp [hc]))]
    simp

/-- C1: repairing `[n ++ ":" ++ c1, c2, ..., ck]` where every `c2, ..., ck`
begins (after `lstrip`) with a version-constraint prefix yields the single
token rejoining all the clauses with commas in their original order. -/
theorem repair_rejoins_orphaned_clauses (n c1 : Str) (cs : List Str)
    (h : ∀ c ∈ cs, isOrphanedSpecifier c = true) :
    fix_orphaned_version_specifiers ((n ++ ':' :: c1) :: cs) =
      [List.intercalate [','] ((n ++ ':' :: c1) :: cs)] := by
  have hloop : fixLoop [] [] ((n ++ ':' :: c1) :: cs) =
      ([], (n ++ ':' :: c1) :: cs) := by
    by_cases hx : isOrphanedSpecifier (n ++ ':' :: c1)
    · rw [fixLoop, if_pos hx, List.nil_append,
        fixLoop_all_spec cs [] [n ++ ':' :: c1] h]
      simp
    · rw [fixLoop, if_neg hx]
      simp only [List.isEmpty_nil, if_pos]
      rw [fixLoop_all_spec cs [] [n ++ ':' :: c1] h]
      simp
  rw [fix_eq_finish, hloop, fixFinish]
  simp

theorem repair_rejoins_orphaned_clauses_witness :
    (∀ c ∈ ["<2.4.1".toList, "!=2.3.5".toList],
      isOrphanedSpecifier c = true) ∧
    fix_orphaned_version_specifiers
      (("community.postgresql".toList ++ ':' :: ">2.2.1".toList) ::
        ["<2.4.1".toList, "!=2.3.5".toList]) =
      [List.intercalate [',']
        (("community.postgresql".toList ++ ':' :: ">2.2.1".toList) ::
          ["<2.4.1".toList, "!=2.3.5".toList])] :=
  ⟨by decide,
    repair_rejoins_orphaned_clauses "community.postgresql".toList
      ">2.2.1".toList ["<2.4.1".toList, "!=2.3.5".toList] (by decide)⟩

theorem fixFinish_no_spec (l : List Str) (fixed : List Str) (c : Str)
    (h : ∀ x ∈ l, isOrphanedSpecifier x = false) :
    fixFinish (fixLoop fixed [c] l) = fixed ++ c :: l := by
  induction l generalizing fixed c with
  | nil =>
    rw [fixLoop, fixFinish]
    simp [intercalate_comma_single]
  | cons x xs ih =>
    have hx : isOrphanedSpecifier x = false := h x (by simp)
    rw [fixLoop, if_neg (by simp [hx])]
    simp only [List.isEmpty_cons, if_neg Bool.false_ne_true]
    rw [intercalate_comma_single,
      ih (fixed ++ [c]) x (fun y hy => h y (by simp [hy]))]
    simp

/-- C7: when no token begins (after `lstrip`) with a version-constraint
prefix, `fix_orphaned_version_specifiers` returns its input unchanged. -/
theorem repair_identity_without_specifiers (name : List Str)
    (h : ∀ x ∈ name, isOrphanedSpecifier x = false) :
    fix_orphaned_version_specifiers name = name := by
  cases name with
  | nil => rfl
  | cons x xs =>
    have hx : isOrphanedSpecifier x = false := h x (by simp)
    rw [fix_eq_finish, fixLoop, if_neg (by simp [hx])]
    simp only [List.isEmpty_nil, if_pos]
    rw [fixFinish_no_spec xs [] x (fun y hy => h y (by simp [hy]))]
    simp

theorem repair_identity_without_specifiers_witness :
    (∀ x ∈ ["community.postgresql".toList, "community.rabbitmq".toList],
      isOrphanedSpecifier x = false) ∧
    fix_orphaned_version_specifiers
        ["community.postgresql".toList, "community.rabbitmq".toList] =
      ["community.postgresql".toList, "community.rabbitmq".toList] :=
  ⟨by decide,
    repair_identity_without_specifiers
      ["community.postgresql".toList, "community.rabbitmq".toList]
      (by decide)⟩

theorem intercalate_comma_push (fixed : List Str) (u v : Str) :
    List.intercalate [','] (fixed ++ [u, v]) =
      List.intercalate [','] (fixed ++ [u ++ ',' :: v]) := by
  have huv : List.intercalate [','] [u, v] = u ++ ',' :: v := by
    rw [intercalate_comma_cons, intercalate_comma_single]
  cases fixed with
  | nil => rw [List.nil_append, List.nil_append, huv, intercalate_comma_single]
  | cons f fs =>
    rw [intercalate_comma_append (f :: fs) [u, v] (by simp) (by simp),
      intercalate_comma_append (f :: fs) [u ++ ',' :: v] (by simp) (by simp),
      huv, intercalate_comma_single]

theorem fixFinish_join (l : List Str) (fixed comps : List Str) :
    List.intercalate [','] (fixFinish (fixLoop fixed comps l)) =
      List.intercalate [','] (fixFinish (fixed, comps ++ l)) := by
  induction l generalizing fixed comps with
  | nil => rw [fixLoop]; simp
  | cons x xs ih =>
    by_cases hx : isOrphanedSpecifier x
    · rw [fixLoop, if_pos hx, ih]
      simp
    · rw [fixLoop, if_neg hx]
      by_cases hc : comps.isEmpty
      · rw [if_pos hc, ih]
        simp [List.isEmpty_iff.mp hc]
      · rw [if_neg hc, ih]
        obtain ⟨c0, cs0, hcs⟩ : ∃ c0 cs0, comps = c0 :: cs0 := by
          cases comps with
          | nil => simp at hc
          | cons c0 cs0 => exact ⟨c0, cs0, rfl⟩
        subst hcs
        show List.intercalate [',']
            ((fixed ++ [List.intercalate [','] (c0 :: cs0)]) ++
              [List.intercalate [','] (x :: xs)]) =
          List.intercalate [','] (fixed ++
            [List.intercalate [','] ((c0 :: cs0) ++ x :: xs)])
        rw [intercalate_comma_append (c0 :: cs0) (x :: xs) (by simp) (by simp),
          List.append_assoc]
        exact intercalate_comma_push fixed (List.intercalate [','] (c0 :: cs0))
          (List.intercalate [','] (x :: xs))

/-- C9: repairing never loses, duplicates, reorders or alters characters —
rejoining the repaired tokens with commas gives back the comma-join of the
original tokens. -/
theorem repair_preserves_comma_join (name : List Str) :
    List.intercalate [','] (fix_orphaned_version_specifiers name) =
      List.intercalate [','] name := by
  rw [fix_eq_finish, fixFinish_join]
  cases name with
  | nil => rfl
  | cons x xs =>
    show List.intercalate [','] (fixFinish ([], x :: xs)) = _
    rw [fixFinish]
    simp [intercalate_comma_single]

/-- Spec-side helper for the claim about `remove_version_specifiers`: the
text before the first `':'` of a specifier. -/
def name_before_colon (s : Str) : Str :=
  s.takeWhile (fun c => !decide (c = ':'))

/-- Spec-side helper: the whole part following the first `':'`. -/
def rest_after_colon (s : Str) : Str :=
  (s.dropWhile (fun c => !decide (c = ':'))).drop 1

/-- Spec-side restatement of the claimed behaviour: keep only the name part
exactly when the specifier contains a `':'` and the part following the
first `':'` begins with a version-constraint prefix. -/
def strip_specifier_spec (item : Str) : Str :=
  if (':' ∈ item) ∧ startswithSpecPrefix (rest_after_colon item) = true then
    name_before_colon item
  else item

theorem before_colon_cons_colon (cs : Str) :
    name_before_colon (':' :: cs) = [] := by
  simp [name_before_colon]

theorem rest_after_cons_colon (cs : Str) : rest_after_colon (':' :: cs) = cs := by
  simp [rest_after_colon]

theorem before_colon_cons_ne (c : Char) (cs : Str) (hc : c ≠ ':') :
    name_before_colon (c :: cs) = c :: name_before_colon cs := by
  simp [name_before_colon, hc]

theorem rest_after_cons_ne (c : Char) (cs : Str) (hc : c ≠ ':') :
    rest_after_colon (c :: cs) = rest_after_colon cs := by
  simp [rest_after_colon, hc]

theorem colon_decomp (s : Str) (h : ':' ∈ s) :
    s = name_before_colon s ++ ':' :: rest_after_colon s := by
  induction s with
  | nil => cases h
  | cons c cs ih =>
    by_cases hc : c = ':'
    · subst hc
      rw [before_colon_cons_colon, rest_after_cons_colon, List.nil_append]
    · have hcs : ':' ∈ cs := by
        cases List.mem_cons.mp h with
        | inl he => exact absurd he.symm hc
        | inr hm => exact hm
      rw [before_colon_cons_ne c cs hc, rest_after_cons_ne c cs hc,
        List.cons_append]
      exact congrArg (c :: ·) (ih hcs)

theorem colon_not_mem_before (s : Str) : ':' ∉ name_before_colon s := by
  induction s with
  | nil => simp [name_before_colon]
  | cons c cs ih =>
    by_cases hc : c = ':'
    · subst hc
      rw [before_colon_cons_colon]
      simp
    · rw [before_colon_cons_ne c cs hc]
      intro hmem
      cases List.mem_cons.mp hmem with
      | inl he => exact hc he.symm
      | inr hm => exact ih hm

theorem splitChar_of_not_mem (sep : Char) (s : Str) (h : sep ∉ s) :
    splitChar sep s = [s] := by
  induction s with
  | nil => rfl
  | cons c cs ih =>
    have hc : c ≠ sep := fun e => h (by rw [← e]; exact List.mem_cons_self c cs)
    rw [splitChar, if_neg hc, ih (fun m => h (List.mem_cons_of_mem c m))]

theorem splitChar_append_colon (pre post : Str) (h : ':' ∉ pre) :
    splitChar ':' (pre ++ ':' :: post) = pre :: splitChar ':' post := by
  induction pre with
  | nil => rw [List.nil_append, splitChar, if_pos rfl]
  | cons c cs ih =>
    have hc : c ≠ ':' := fun e => h (by rw [← e]; exact List.mem_cons_self c cs)
    rw [List.cons_append, splitChar, if_neg hc,
      ih (fun m => h (List.mem_cons_of_mem c m))]

theorem splitChar_head (s : Str) :
    ∃ t, splitChar ':' s = name_before_colon s :: t := by
  induction s with
  | nil => exact ⟨[], by rw [splitChar]; rfl⟩
  | cons c cs ih =>
    by_cases hc : c = ':'
    · subst hc
      exact ⟨splitChar ':' cs, by rw [splitChar, if_pos rfl, before_colon_cons_colon]⟩
    · obtain ⟨t, ht⟩ := ih
      exact ⟨t, by rw [splitChar, if_neg hc, ht, before_colon_cons_ne c cs hc]⟩

theorem startswith_before_colon (p s : Str) (hp : ':' ∉ p) :
    startswith (name_before_colon s) p = startswith s p := by
  induction p generalizing s with
  | nil => simp [startswith]
  | cons a ps ih =>
    have ha : a ≠ ':' := fun e => hp (by rw [← e]; exact List.mem_cons_self a ps)
    cases s with
    | nil => simp [name_before_colon]
    | cons c cs =>
      by_cases hc : c = ':'
      · subst hc
        rw [before_colon_cons_colon]
        show false = startswith (':' :: cs) (a :: ps)
        simp [startswith, fun e => ha e]
      · rw [before_colon_cons_ne c cs hc]
        show (decide (a = c) && startswith (name_before_colon cs) ps) =
          (decide (a = c) && startswith cs ps)
        rw [ih cs (fun m => hp (List.mem_cons_of_mem a m))]

theorem specPrefix_before_colon (s : Str) :
    startswithSpecPrefix (name_before_colon s) = startswithSpecPrefix s := by
  have h : ∀ p, ':' ∉ p →
      startswith (name_before_colon s) p = startswith s p :=
    fun p hp => startswith_before_colon p s hp
  simp only [startswithSpecPrefix, VERSION_SPECIFIER_PREFIXES, List.any_cons,
    List.any_nil]
  rw [h ['*'] (by decide), h ['!', '='] (by decide), h ['=', '='] (by decide),
    h ['>', '='] (by decide), h ['>'] (by decide), h ['<', '='] (by decide),
    h ['<'] (by decide)]

theorem remove_item_eq_spec (item : Str) :
    remove_version_specifier_item item = strip_specifier_spec item := by
  by_cases hm : (':' ∈ item)
  · obtain ⟨t, ht⟩ := splitChar_head (rest_after_colon item)
    have hsplit : splitChar ':' item =
        name_before_colon item ::
          name_before_colon (rest_after_colon item) :: t := by
      conv_lhs => rw [colon_decomp item hm]
      rw [splitChar_append_colon _ _ (colon_not_mem_before item), ht]
    unfold remove_version_specifier_item
    rw [hsplit]
    show (if startswithSpecPrefix (name_before_colon (rest_after_colon item))
        then name_before_colon item else item) = strip_specifier_spec item
    rw [specPrefix_before_colon (rest_after_colon item)]
    unfold strip_specifier_spec
    by_cases hb : startswithSpecPrefix (rest_after_colon item) = true
    · rw [if_pos hb, if_pos ⟨hm, hb⟩]
    · rw [if_neg hb, if_neg (fun hcon => hb hcon.2)]
  · unfold remove_version_specifier_item
    rw [splitChar_of_not_mem ':' item hm]
    show item = strip_specifier_spec item
    unfold strip_specifier_spec
    rw [if_neg (fun hcon => hm hcon.1)]

/-- C5: a specifier is stripped to its name part exactly when it contains a
`':'` whose following part begins with a version-constraint prefix;
otherwise (in particular for a VCS locator with a comma-separated ref) it
is yielded unchanged. -/
theorem remove_version_specifiers_characterization (name : List Str) :
    remove_version_specifiers name = name.map strip_specifier_spec := by
  unfold remove_version_specifiers
  induction name with
  | nil => rfl
  | cons x xs ih =>
    rw [List.map_cons, List.map_cons, remove_item_eq_spec x, ih]

/-- Spec-side restatement for the reverse index: for each manifest entry
whose name list contains the collection name (once per occurrence, in
encounter order), the install path is the root joined with the name's
dot-separated parts as nested path segments. -/
def manifest_paths_spec (m : Manifest) (name : Str) : List Str :=
  match m with
  | [] => []
  | (path, cols) :: rest =>
    (cols.filter (fun c => c = name)).map
        (fun _ => osPathJoin path (splitChar '.' name)) ++
      manifest_paths_spec rest name

theorem lookupList_dictAppend (d : List (Str × List Str)) (k k' v : Str) :
    lookupList (dictAppend d k v) k' =
      if k = k' then lookupList d k' ++ [v] else lookupList d k' := by
  induction d with
  | nil =>
    by_cases h : k = k'
    · subst h; simp [dictAppend, lookupList]
    · simp [dictAppend, lookupList, h]
  | cons kv rest ih =>
    obtain ⟨k0, vs⟩ := kv
    by_cases h0 : k0 = k
    · subst h0
      by_cases h1 : k0 = k'
      · subst h1; simp [dictAppend, lookupList]
      · simp [dictAppend, lookupList, h1]
    · by_cases h1 : k0 = k'
      · subst h1
        have hk : ¬(k = k0) := fun e => h0 e.symm
        simp [dictAppend, lookupList, h0, hk]
      · simp [dictAppend, lookupList, h0, h1, ih]

theorem map_filter_const (cols : List Str) (name : Str) (f : Str → Str) :
    (cols.filter (fun c => c = name)).map f =
      (cols.filter (fun c => c = name)).map (fun _ => f name) := by
  induction cols with
  | nil => rfl
  | cons c cs ih =>
    by_cases hc : c = name
    · subst hc; simp [List.filter_cons, ih]
    · simp [List.filter_cons, hc, ih]

theorem lookupList_inner_fold (cols : List Str) (path : Str)
    (d : List (Str × List Str)) (name : Str) :
    lookupList
        (cols.foldl
          (fun d collection =>
            dictAppend d collection (osPathJoin path (splitChar '.' collection)))
          d)
        name =
      lookupList d name ++
        (cols.filter (fun c => c = name)).map
          (fun c => osPathJoin path (splitChar '.' c)) := by
  induction cols generalizing d with
  | nil => simp
  | cons c cs ih =>
    rw [List.foldl_cons, ih, lookupList_dictAppend]
    by_cases hc : c = name
    · subst hc
      simp [List.filter_cons]
    · simp [List.filter_cons, hc, fun e => hc e]

/-- C6: the reverse index built by `installed_collections_dict` maps each
collection name to the paths of its containing roots, joined with the
name's dot-separated parts, accumulated in encounter order. -/
theorem installed_collections_dict_characterization (m : Manifest)
    (name : Str) :
    lookupList (installed_collections_dict m) name =
      manifest_paths_spec m name := by
  have main : ∀ (mm : Manifest) (d : List (Str × List Str)),
      lookupList
          (mm.foldl
            (fun d pc =>
              pc.2.foldl
                (fun d collection =>
                  dictAppend d collection
                    (osPathJoin pc.1 (splitChar '.' collection)))
                d)
            d)
          name =
        lookupList d name ++ manifest_paths_spec mm name := by
    intro mm
    induction mm with
    | nil => intro d; simp [manifest_paths_spec]
    | cons pc rest ih =>
      intro d
      obtain ⟨path, cols⟩ := pc
      rw [List.foldl_cons, ih, lookupList_inner_fold,
        map_filter_const cols name (fun c => osPathJoin path (splitChar '.' c))]
      simp [manifest_paths_spec]
  have h := main m []
  rw [installed_collections_dict, h]
  rfl

theorem uninstall_fold (l : List Str) (installed : List (Str × List Str))
    (b : Bool) (del : List Str) :
    l.foldl
        (fun acc collection =>
          if hasKey installed collection then
            (true, acc.2 ++ lookupList installed collection)
          else acc)
        (b, del) =
      (b || l.any (fun c => hasKey installed c),
       del ++
         (l.map (fun c =>
           if hasKey installed c then lookupList installed c else [])).flatten) := by
  induction l generalizing b del with
  | nil => simp
  | cons c cs ih =>
    by_cases hc : hasKey installed c = true
    · rw [List.foldl_cons, if_pos hc, ih]
      simp [hc]
    · rw [List.foldl_cons, if_neg (by simp [hc]), ih]
      simp [hc]

/-- C2: `collection_uninstall` deletes, for each constraint-stripped name
present as a key of the reverse index, every associated install path, and
reports `changed` exactly when some stripped name is a key; and on the
two-root example manifest, uninstalling `ns.x` deletes both install paths
of `ns.x`, leaves `ns.y`'s path untouched, and reports `changed`, while
uninstalling the absent `ns.z` deletes nothing and reports unchanged. -/
theorem collection_uninstall_characterization :
    (∀ (name : List Str) (m : Manifest),
      collection_uninstall name m =
        ((remove_version_specifiers name).any
          (fun c => hasKey (installed_collections_dict m) c),
         ((remove_version_specifiers name).map (fun c =>
           if hasKey (installed_collections_dict m) c then
             lookupList (installed_collections_dict m) c
           else [])).flatten)) ∧
    collection_uninstall ["ns.x".toList]
        [("/roots/a".toList, ["ns.x".toList, "ns.y".toList]),
         ("/roots/b".toList, ["ns.x".toList])] =
      (true, ["/roots/a/ns/x".toList, "/roots/b/ns/x".toList]) ∧
    "/roots/a/ns/y".toList ∉
      (collection_uninstall ["ns.x".toList]
        [("/roots/a".toList, ["ns.x".toList, "ns.y".toList]),
         ("/roots/b".toList, ["ns.x".toList])]).2 ∧
    collection_uninstall ["ns.z".toList]
        [("/roots/a".toList, ["ns.x".toList, "ns.y".toList]),
         ("/roots/b".toList, ["ns.x".toList])] =
      (false, []) := by
  refine ⟨fun name m => ?_, by decide, by decide, by decide⟩
  rw [collection_uninstall, uninstall_fold]
  simp

/-- C3: planning for `state=absent` always yields the listing probe with
machine-readable output and an empty targets component, whatever
specifiers or requirements were supplied. -/
theorem plan_absent_is_listing_probe :
    (∀ (executable : Str) (name : Option (List Str))
        (requirements : Option Str) (extra_args : Option Str),
      plan_cmd executable ModuleState.absent name requirements extra_args =
        executable :: "collection".toList :: "list".toList ::
          "--format=json".toList :: extraSplit extra_args) ∧
    (∀ (name : Option (List Str)) (requirements : Option Str),
      plan_targets ModuleState.absent name requirements = []) := by
  constructor
  · intro e n r ea
    simp [plan_cmd, state_args, plan_targets]
  · intro n r
    simp [plan_targets]

theorem startswith_iff (s p : Str) :
    startswith s p = true ↔ ∃ t, s = p ++ t := by
  induction p generalizing s with
  | nil => simp [startswith]
  | cons a ps ih =>
    cases s with
    | nil => simp [startswith]
    | cons c cs =>
      show (decide (a = c) && startswith cs ps) = true ↔ _
      simp only [Bool.and_eq_true, decide_eq_true_eq, ih]
      constructor
      · rintro ⟨hac, t, ht⟩
        exact ⟨t, by rw [List.cons_append, hac, ht]⟩
      · rintro ⟨t, ht⟩
        rw [List.cons_append] at ht
        injection ht with h1 h2
        exact ⟨h1.symm, t, h2⟩

theorem isSubstringOf_iff (needle hay : Str) :
    isSubstringOf needle hay = true ↔
      ∃ pre suf, hay = pre ++ needle ++ suf := by
  induction hay with
  | nil =>
    simp only [isSubstringOf, List.isEmpty_iff]
    constructor
    · intro h
      exact ⟨[], [], by rw [h]; rfl⟩
    · rintro ⟨pre, suf, h⟩
      rcases List.append_eq_nil.mp h.symm with ⟨h1, h2⟩
      exact (List.append_eq_nil.mp h1).2
  | cons c rest ih =>
    simp only [isSubstringOf, Bool.or_eq_true, startswith_iff, ih]
    constructor
    · rintro (⟨t, ht⟩ | ⟨pre, suf, h⟩)
      · exact ⟨[], t, by rw [ht]; rfl⟩
      · exact ⟨c :: pre, suf, by rw [h]; rfl⟩
    · rintro ⟨pre, suf, h⟩
      cases pre with
      | nil => exact Or.inl ⟨suf, by rw [h]; rfl⟩
      | cons p ps =>
        rw [List.cons_append, List.cons_append] at h
        injection h with h1 h2
        exact Or.inr ⟨ps, suf, h2⟩

theorem run_module_success_nonabsent (state : ModuleState)
    (name : Option (List Str)) (requirements : Option Str)
    (extra_args : Option Str) (executable : Str)
    (run : List Str → RunOutput) (parse : Str → Option Manifest)
    (hs : state ≠ ModuleState.absent)
    (hrc : (run (plan_cmd executable state name requirements
      extra_args)).rc = 0) :
    run_module state name requirements extra_args executable run parse =
      ModuleOutcome.exitJson
        { changed := isSubstringOf "was installed successfully".toList
            (run (plan_cmd executable state name requirements
              extra_args)).stdout,
          rc := (run (plan_cmd executable state name requirements
            extra_args)).rc,
          stdout := (run (plan_cmd executable state name requirements
            extra_args)).stdout,
          stderr := (run (plan_cmd executable state name requirements
            extra_args)).stderr,
          cmd := plan_cmd executable state name requirements extra_args } := by
  simp only [run_module]
  rw [if_neg (fun hne => hne hrc), if_neg hs]

/-- C4: for non-`absent` states, when the command exits 0 the module exits
normally and reports `changed` exactly when the CLI's stdout contains the
`was installed successfully` marker as a substring. -/
theorem changed_iff_success_marker (state : ModuleState)
    (name : Option (List Str)) (requirements : Option Str)
    (extra_args : Option Str) (executable : Str)
    (run : List Str → RunOutput) (parse : Str → Option Manifest)
    (hs : state ≠ ModuleState.absent)
    (hrc : (run (plan_cmd executable state name requirements
      extra_args)).rc = 0) :
    ∃ r, run_module state name requirements extra_args executable run parse =
        ModuleOutcome.exitJson r ∧
      (r.changed = true ↔ ∃ pre suf,
        (run (plan_cmd executable state name requirements
          extra_args)).stdout =
            pre ++ "was installed successfully".toList ++ suf) :=
  ⟨_, run_module_success_nonabsent state name requirements extra_args
      executable run parse hs hrc,
    isSubstringOf_iff "was installed successfully".toList
      (run (plan_cmd executable state name requirements extra_args)).stdout⟩

theorem changed_iff_success_marker_witness :
    (ModuleState.present ≠ ModuleState.absent) ∧
    ((fun _ => RunOutput.mk 0 "pkg.a was installed successfully".toList [])
        (plan_cmd "/usr/bin/mgr".toList ModuleState.present
          (some ["pkg.a".toList]) none none)).rc = 0 ∧
    (∃ r, run_module ModuleState.present (some ["pkg.a".toList]) none none
          "/usr/bin/mgr".toList
          (fun _ => RunOutput.mk 0 "pkg.a was installed successfully".toList [])
          (fun _ => none) =
        ModuleOutcome.exitJson r ∧
      (r.changed = true ↔ ∃ pre suf,
        ((fun _ =>
            RunOutput.mk 0 "pkg.a was installed successfully".toList [])
          (plan_cmd "/usr/bin/mgr".toList ModuleState.present
            (some ["pkg.a".toList]) none none)).stdout =
          pre ++ "was installed successfully".toList ++ suf)) :=
  ⟨by decide, rfl,
    changed_iff_success_marker ModuleState.present (some ["pkg.a".toList])
      none none "/usr/bin/mgr".toList
      (fun _ => RunOutput.mk 0 "pkg.a was installed successfully".toList [])
      (fun _ => none) (by decide) rfl⟩

theorem run_module_nonzero (state : ModuleState)
    (name : Option (List Str)) (requirements : Option Str)
    (extra_args : Option Str) (executable : Str)
    (run : List Str → RunOutput) (parse : Str → Option Manifest)
    (h : (run (plan_cmd executable state name requirements
      extra_args)).rc ≠ 0) :
    run_module state name requirements extra_args executable run parse =
      ModuleOutcome.failJson
        (executable ++ " exit with non-zero code".toList)
        { changed := false,
          rc := (run (plan_cmd executable state name requirements
            extra_args)).rc,
          stdout := (run (plan_cmd executable state name requirements
            extra_args)).stdout,
          stderr := (run (plan_cmd executable state name requirements
            extra_args)).stderr,
          cmd := plan_cmd executable state name requirements extra_args } := by
  simp only [run_module]
  rw [if_pos h]

/-- C8: for every state, a nonzero exit code produces the fatal failure
outcome carrying the full command vector, exit code, stdout and stderr,
and the outcome does not depend on the manifest parser — the indexing and
uninstall emulation never run. -/
theorem nonzero_exit_fails (state : ModuleState)
    (name : Option (List Str)) (requirements : Option Str)
    (extra_args : Option Str) (executable : Str)
    (run : List Str → RunOutput) (parse : Str → Option Manifest)
    (h : (run (plan_cmd executable state name requirements
      extra_args)).rc ≠ 0) :
    run_module state name requirements extra_args executable run parse =
      ModuleOutcome.failJson
        (executable ++ " exit with non-zero code".toList)
        { changed := false,
          rc := (run (plan_cmd executable state name requirements
            extra_args)).rc,
          stdout := (run (plan_cmd executable state name requirements
            extra_args)).stdout,
          stderr := (run (plan_cmd executable state name requirements
            extra_args)).stderr,
          cmd := plan_cmd executable state name requirements extra_args } ∧
    ∀ parse2 : Str → Option Manifest,
      run_module state name requirements extra_args executable run parse =
        run_module state name requirements extra_args executable run parse2 :=
  ⟨run_module_nonzero state name requirements extra_args executable run
      parse h,
    fun parse2 => by
      rw [run_module_nonzero state name requirements extra_args executable
          run parse h,
        run_module_nonzero state name requirements extra_args executable
          run parse2 h]⟩

theorem nonzero_exit_fails_witness :
    ((fun _ => RunOutput.mk 1 [] "boom".toList)
        (plan_cmd "/usr/bin/mgr".toList ModuleState.present
          (some ["pkg.a".toList]) none none)).rc ≠ 0 ∧
    (run_module ModuleState.present (some ["pkg.a".toList]) none none
        "/usr/bin/mgr".toList (fun _ => RunOutput.mk 1 [] "boom".toList)
        (fun _ => none) =
      ModuleOutcome.failJson
        ("/usr/bin/mgr".toList ++ " exit with non-zero code".toList)
        { changed := false,
          rc := ((fun _ => RunOutput.mk 1 [] "boom".toList)
            (plan_cmd "/usr/bin/mgr".toList ModuleState.present
              (some ["pkg.a".toList]) none none)).rc,
          stdout := ((fun _ => RunOutput.mk 1 [] "boom".toList)
            (plan_cmd "/usr/bin/mgr".toList ModuleState.present
              (some ["pkg.a".toList]) none none)).stdout,
          stderr := ((fun _ => RunOutput.mk 1 [] "boom".toList)
            (plan_cmd "/usr/bin/mgr".toList ModuleState.present
              (some ["pkg.a".toList]) none none)).stderr,
          cmd := plan_cmd "/usr/bin/mgr".toList ModuleState.present
            (some ["pkg.a".toList]) none none } ∧
      ∀ parse2 : Str → Option Manifest,
        run_module ModuleState.present (some ["pkg.a".toList]) none none
            "/usr/bin/mgr".toList (fun _ => RunOutput.mk 1 [] "boom".toList)
            (fun _ => none) =
          run_module ModuleState.present (some ["pkg.a".toList]) none none
            "/usr/bin/mgr".toList (fun _ => RunOutput.mk 1 [] "boom".toList)
            parse2) :=
  ⟨by decide,
    nonzero_exit_fails ModuleState.present (some ["pkg.a".toList]) none none
      "/usr/bin/mgr".toList (fun _ => RunOutput.mk 1 [] "boom".toList)
      (fun _ => none) (by decide)⟩

/-- C10: with `state=absent` and a requirements path instead of a name
list, even a clean listing run (exit 0, parseable stdout) ends in the
fatal `collection uninstall failed` outcome, because the uninstall
emulation iterates the absent name list. -/
theorem absent_requirements_uninstall_fails (requirements : Str)
    (extra_args : Option Str) (executable : Str)
    (run : List Str → RunOutput) (parse : Str → Option Manifest)
    (m : Manifest)
    (hrc : (run (plan_cmd executable ModuleState.absent none
      (some requirements) extra_args)).rc = 0)
    (hparse : parse (run (plan_cmd executable ModuleState.absent none
      (some requirements) extra_args)).stdout = some m) :
    run_module ModuleState.absent none (some requirements) extra_args
        executable run parse =
      ModuleOutcome.failJson "collection uninstall failed".toList
        { changed := false,
          rc := (run (plan_cmd executable ModuleState.absent none
            (some requirements) extra_args)).rc,
          stdout := (run (plan_cmd executable ModuleState.absent none
            (some requirements) extra_args)).stdout,
          stderr := (run (plan_cmd executable ModuleState.absent none
            (some requirements) extra_args)).stderr,
          cmd := plan_cmd executable ModuleState.absent none
            (some requirements) extra_args } := by
  simp only [run_module]
  rw [if_neg (fun hne => hne hrc), if_pos trivial, hparse]
  rfl

theorem absent_requirements_uninstall_fails_witness :
    ((fun _ => RunOutput.mk 0 "{}".toList [])
        (plan_cmd "/usr/bin/mgr".toList ModuleState.absent none
          (some "/my_app/requirements.yml".toList) none)).rc = 0 ∧
    (fun _ => some ([] : Manifest))
        ((fun _ => RunOutput.mk 0 "{}".toList [])
          (plan_cmd "/usr/bin/mgr".toList ModuleState.absent none
            (some "/my_app/requirements.yml".toList) none)).stdout =
      some ([] : Manifest) ∧
    run_module ModuleState.absent none
        (some "/my_app/requirements.yml".toList) none "/usr/bin/mgr".toList
        (fun _ => RunOutput.mk 0 "{}".toList [])
        (fun _ => some ([] : Manifest)) =
      ModuleOutcome.failJson "collection uninstall failed".toList
        { changed := false,
          rc := ((fun _ => RunOutput.mk 0 "{}".toList [])
            (plan_cmd "/usr/bin/mgr".toList ModuleState.absent none
              (some "/my_app/requirements.yml".toList) none)).rc,
          stdout := ((fun _ => RunOutput.mk 0 "{}".toList [])
            (plan_cmd "/usr/bin/mgr".toList ModuleState.absent none
              (some "/my_app/requirements.yml".toList) none)).stdout,
          stderr := ((fun _ => RunOutput.mk 0 "{}".toList [])
            (plan_cmd "/usr/bin/mgr".toList ModuleState.absent none
              (some "/my_app/requirements.yml".toList) none)).stderr,
          cmd := plan_cmd "/usr/bin/mgr".toList ModuleState.absent none
            (some "/my_app/requirements.yml".toList) none } :=
  ⟨rfl, rfl,
    absent_requirements_uninstall_fails "/my_app/requirements.yml".toList
      none "/usr/bin/mgr".toList (fun _ => RunOutput.mk 0 "{}".toList [])
      (fun _ => some ([] : Manifest)) [] rfl rfl⟩
